import Mathlib

/- Verification development for arcoder.py: a shallow embedding of its two
   encoders (ARCoder and Holmes) and proofs of the specified properties.

   Modelling conventions:
   - Python str is modelled as Lean String (a structure around List Char);
     the scanning functions work on List Char.
   - Python dicts are association lists; dict.get(k, []) is an assoc-list
     lookup with default [].
   - Python set values are modelled as deduplicated lists: list(set(..)) is
     List.dedup.  The order of a Python list(set(..)) is unspecified, so
     set-valued results are compared as sets; dedup fixes one representative
     order for the same set of elements.
   - The float priority keys of Holmes.rules are scaled by 1000 into Nat
     (1.001 becomes 1001, 4.200 becomes 4200, ...); this preserves ordering,
     equality, and the comparisons 4.015 < num < 5.000 used by the code.
   - Python str.lower / str.capitalize act as ASCII case mappings here; all
     table keys and rule patterns are ASCII, and no claim depends on the
     case mapping of non-ASCII letters. -/

/-- Python str.lower on one character (ASCII range; other characters are
returned unchanged). -/
def lowerChar (c : Char) : Char :=
  if 65 ≤ c.toNat ∧ c.toNat ≤ 90 then Char.ofNat (c.toNat + 32) else c

/-- Python str.upper on one character (ASCII range), used by str.capitalize. -/
def upperChar (c : Char) : Char :=
  if 97 ≤ c.toNat ∧ c.toNat ≤ 122 then Char.ofNat (c.toNat - 32) else c

/-- Python s.lower() on a character list. -/
def lowerList (s : List Char) : List Char := s.map lowerChar

/-- Python s.lower() on a String. -/
def pyLower (s : String) : String := String.mk (lowerList s.data)

/-- The straight apostrophe character, written via its code point 39. -/
def apoChar : Char := Char.ofNat 39

/-- The one-character string consisting of the straight apostrophe. -/
def apoStr : String := String.mk [apoChar]

/-- Membership in ARCoder.VALID_CHARS, the single-character regex class of
Latin letters, the curly apostrophe, the straight apostrophe, hyphen and
space; re.match tests one character against it. -/
def validChar (c : Char) : Bool :=
  (97 ≤ c.toNat && c.toNat ≤ 122) || (65 ≤ c.toNat && c.toNat ≤ 90) ||
    (c == '‘') || (c == apoChar) || (c == '-') || (c == ' ')

/-- itertools.groupby collapsing (undup in ARCoder.encode): auxiliary scan,
prev being the character last emitted. -/
def undupAux (prev : Char) : List Char → List Char
  | [] => []
  | c :: rest => if c = prev then undupAux prev rest else c :: undupAux c rest

/-- Python ''.join(i for i, _ in itertools.groupby(s)): every maximal run of
an identical character collapses to a single occurrence. -/
def undupList : List Char → List Char
  | [] => []
  | c :: rest => c :: undupAux c rest

/-- Scan of re.sub of the pattern (.)\1+ with replacement \1: the regex dot
does not match a newline, so runs of newlines are kept; every other maximal
run of an identical character collapses to one occurrence.  prev is the
character last emitted. -/
def compressAux (prev : Char) : List Char → List Char
  | [] => []
  | c :: rest =>
    if c = prev ∧ c ≠ '\n' then compressAux prev rest else c :: compressAux c rest

/-- re.sub of the pattern (.)\1+ with replacement \1 on a character list. -/
def compressList : List Char → List Char
  | [] => []
  | c :: rest => c :: compressAux c rest

/-- ARCoder._compress (the same regex substitution is inlined in
Holmes._encode_rule): collapse repeated characters. -/
def ARCoder.compress (s : String) : String := String.mk (compressList s.data)

/-- Python str.split() as used in ARCoder.encode: after the VALID_CHARS
filter and the hyphen replacement the only whitespace character that can
occur is the space, so this splits on runs of spaces, discarding empty
words.  cur holds the current word reversed. -/
def splitSpacesAux (cur : List Char) : List Char → List (List Char)
  | [] => if cur.isEmpty then [] else [cur.reverse]
  | c :: rest =>
    if c = ' ' then
      if cur.isEmpty then splitSpacesAux [] rest
      else cur.reverse :: splitSpacesAux [] rest
    else splitSpacesAux (c :: cur) rest

/-- Python str.split() (see splitSpacesAux). -/
def splitSpaces (s : List Char) : List (List Char) := splitSpacesAux [] s

/-- Python str.capitalize(): first character uppercased, the rest
lowercased. -/
def capitalizeWord : List Char → List Char
  | [] => []
  | c :: rest => upperChar c :: lowerList rest

/-- ARCoder.encoder: the substitution table (a dict, modelled as an
association list; get with default [] is encGet below). -/
def ARCoder.encoder : List (String × List String) :=
  [("c", ["s"]),
   ("g", ["k", "j"]),
   ("i", ["i", "e"]),
   ("o", ["u"]),
   ("p", ["b"]),
   ("q", ["k"]),
   ("u", ["u"]),
   ("v", ["f"]),
   ("w", ["u"]),
   ("y", ["e"]),
   ("z", ["s"]),
   ("Ch", ["h"]),
   ("e.", ["", "e"]),
   ("h.", [""]),
   ("t.", ["t", "d"]),
   ("ai", ["i", "ae"]),
   ("ay", ["i"]),
   ("eh", ["e"]),
   ("ch", ["0"]),
   ("gh", ["k"]),
   ("iy", ["e"]),
   ("kh", ["k"]),
   ("ph", ["f"]),
   ("ou", ["u"]),
   ("oo", ["u"]),
   ("sh", ["0"]),
   ("th", ["z"]),
   ("ua", ["a", "ua", "uwa"]),
   ("wu", ["u"]),
   ("‘", ["a"]),
   (apoStr, ["", "w"])]

/-- Python d.get(key, []) on ARCoder.encoder. -/
def encGet (k : String) : List String := (List.lookup k ARCoder.encoder).getD []

/-- Python set(a).union(b) rendered as a list: the elements of both lists
without duplicates. -/
def setUnion (a b : List String) : List String := (a ++ b).dedup

/-- The variable force_two_char of ARCoder._encode: the slice itself when it
has two characters, the slice with the "." end-marker appended when it has
one. -/
def ARCoder.forceTwoChar (s : List Char) : String :=
  if s.length = 1 then String.mk (s ++ ['.']) else String.mk s

/-- The contents of the set variable encoded of ARCoder._encode after the
two-character branch: when the slice has two characters or the cursor is at
the final index, the union of the verbatim and the lower-cased lookups of
force_two_char; otherwise Python falls through with the empty set. -/
def ARCoder.twoCharSet (s : List Char) (final : Bool) : List String :=
  if s.length = 2 ∨ final = true then
    setUnion (encGet (ARCoder.forceTwoChar s))
      (encGet (pyLower (ARCoder.forceTwoChar s)))
  else []

/-- The contents of encoded after the single-character fallback unions of
ARCoder._encode: the carried two-character set (empty whenever this point is
reached) together with the verbatim and lower-cased lookups of the first
character of the slice. -/
def ARCoder.oneCharSet (s : List Char) (final : Bool) : List String :=
  setUnion
    (setUnion (ARCoder.twoCharSet s final) (encGet (String.mk [s.headD ' '])))
    (encGet (String.mk [lowerChar (s.headD ' ')]))

/-- ARCoder._encode: s is the 1- or 2-character slice at the cursor and
final says the cursor is at the last index.  Returns the candidate list and
the advance: the two-character match (advance 2) if non-empty, else the
single-character match (advance 1) if non-empty, else the lower-cased first
character unchanged (advance 1). -/
def ARCoder.encodeStep (s : List Char) (final : Bool) : List String × Nat :=
  if ARCoder.twoCharSet s final ≠ [] then (ARCoder.twoCharSet s final, 2)
  else if ARCoder.oneCharSet s final ≠ [] then (ARCoder.oneCharSet s final, 1)
  else ([String.mk [lowerChar (s.headD ' ')]], 1)

/-- The scanning loop of ARCoder.encode: at a cursor position with remaining
characters c :: rest the slice undup_title[i : i+2] is c :: rest.take 1, and
the final flag i = len - 1 holds exactly when rest is empty; the cursor then
advances by the returned advance, so the remainder after the step is
rest.drop (advance - 1).  The fuel argument, the length of the remainder at
the top call, makes the recursion structural; it is never exhausted because
every step advances the cursor by at least one character. -/
def ARCoder.tokenizeAux : Nat → List Char → List (List String × Nat)
  | _, [] => []
  | 0, _ => []
  | fuel + 1, c :: rest =>
    ARCoder.encodeStep (c :: rest.take 1) rest.isEmpty ::
      ARCoder.tokenizeAux fuel
        (rest.drop ((ARCoder.encodeStep (c :: rest.take 1) rest.isEmpty).2 - 1))

/-- The token stream of ARCoder.encode for an already normalized input. -/
def ARCoder.tokenize (r : List Char) : List (List String × Nat) :=
  ARCoder.tokenizeAux r.length r

/-- itertools.product over a list of candidate lists: every way of choosing
one element per list, the first factor varying slowest. -/
def listProd : List (List String) → List (List String)
  | [] => [[]]
  | l :: ls => (l.map (fun x => (listProd ls).map (fun tl => x :: tl))).flatten

/-- Lines 102--105 of ARCoder.encode: the VALID_CHARS filter over the
lowercased input, hyphen-to-space replacement, run collapsing, and per-word
capitalisation joined without separators. -/
def ARCoder.normalize (s : List Char) : List Char :=
  let filtered := (lowerList s).filter (fun c => validChar c)
  let filtered_spaces := filtered.map (fun c => if c = '-' then ' ' else c)
  let undup := undupList filtered_spaces
  ((splitSpaces undup).map capitalizeWord).flatten

/-- ARCoder.encode: normalize, tokenize, take the cartesian product of the
candidate lists, compress each combination and deduplicate. -/
def ARCoder.encode (s : String) : List String :=
  let undup_title := ARCoder.normalize s.data
  let encoded := (ARCoder.tokenize undup_title).map Prod.fst
  ((listProd encoded).map (fun x => ARCoder.compress (String.join x))).dedup

/-- The number of source characters actually covered by each token of the
scan: the advance, capped by the number of characters remaining (a final
single character matched through the "X." end-marker convention returns
advance 2 while only one character remains). -/
def ARCoder.tokenConsumedAux : Nat → List Char → List Nat
  | _, [] => []
  | 0, _ => []
  | fuel + 1, c :: rest =>
    min ((ARCoder.encodeStep (c :: rest.take 1) rest.isEmpty).2) (rest.length + 1) ::
      ARCoder.tokenConsumedAux fuel
        (rest.drop ((ARCoder.encodeStep (c :: rest.take 1) rest.isEmpty).2 - 1))

/-- Per-token consumed character counts for a normalized input. -/
def ARCoder.tokenConsumed (r : List Char) : List Nat :=
  ARCoder.tokenConsumedAux r.length r

/-- Holmes.P. -/
def Holmes.P : String := "prefix"

/-- Holmes.S. -/
def Holmes.S : String := "suffix"

/-- Holmes.A. -/
def Holmes.A : String := "anywhere"

/-- Holmes.rules with the priority keys scaled by 1000. -/
def Holmes.rules : List (Nat × String × String × String) :=
  [(1001, "al-", "", Holmes.P),
   (1002, "al ", "", Holmes.P),
   (1003, "el-", "", Holmes.P),
   (1004, "el ", "", Holmes.P),
   (1005, "abul", "", Holmes.P),
   (1006, "abu ", "", Holmes.P),
   (2001, "-", "", Holmes.A),
   (2002, apoStr, "", Holmes.A),
   (2003, " ", "", Holmes.A),
   (3001, "abdal", "abdul", Holmes.A),
   (3002, "abdel", "abdul", Holmes.A),
   (3003, "abdol", "abdul", Holmes.A),
   (3004, "der", "dur", Holmes.A),
   (3005, "q", "k", Holmes.A),
   (3006, "allah", "ullah", Holmes.A),
   (3007, "ean", "id", Holmes.S),
   (3008, "ead", "id", Holmes.S),
   (3009, "ai", "ay", Holmes.A),
   (3010, "e", "i", Holmes.A),
   (3011, "ou", "u", Holmes.A),
   (3012, "aee", "ay", Holmes.A),
   (3013, "o", "u", Holmes.P),
   (3014, "ah", "a", Holmes.A),
   (3015, "ae", "ay", Holmes.A),
   (3016, "ei", "ay", Holmes.P),
   (3017, "gh", "k", Holmes.P),
   (3018, "kh", "k", Holmes.A),
   (3019, "kah", "ka", Holmes.A),
   (3020, "ie", "i", Holmes.A),
   (3021, "awo", "ao", Holmes.A),
   (3022, "awu", "au", Holmes.A),
   (3023, "awz", "az", Holmes.A),
   (3024, "dh", "d", Holmes.A),
   (3025, "ou", "k", Holmes.A),
   (3026, "kua", "ka", Holmes.A),
   (3027, "aw", "au", Holmes.A),
   (3028, "v", "w", Holmes.A),
   (3029, "say", "sy", Holmes.P),
   (3030, "g", "j", Holmes.P),
   (3031, "sw", "s", Holmes.P),
   (4005, "ee", "i", Holmes.A),
   (4015, "oo", "u", Holmes.A),
   (5001, "ed", "ad", Holmes.S),
   (5002, "el", "al", Holmes.S),
   (5003, "eh", "a", Holmes.S),
   (5004, "y", "i", Holmes.S),
   (5005, "ii", "i", Holmes.S),
   (5006, "iya", "ia", Holmes.A),
   (5007, "ah", "a", Holmes.A),
   (5008, "ry", "ri", Holmes.A),
   (5009, "mo", "mu", Holmes.P),
   (5010, "eya", "ia", Holmes.S)]

/-- Python s.replace(orig, subst) for a non-empty pattern: left-to-right,
non-overlapping replacement of every occurrence.  The fuel argument, taken
as the length of s at the top call, is an upper bound that is never
exhausted; it makes the skip over a matched pattern structurally
recursive. -/
def replaceAllAux (orig subst : List Char) : Nat → List Char → List Char
  | _, [] => []
  | 0, s => s
  | fuel + 1, c :: rest =>
    if orig.isPrefixOf (c :: rest) then
      subst ++ replaceAllAux orig subst fuel ((c :: rest).drop orig.length)
    else c :: replaceAllAux orig subst fuel rest

/-- Python s.replace(orig, subst); for the empty pattern Python inserts the
replacement before every character and once at the end (no rule of
Holmes.rules has an empty pattern). -/
def replaceAll (orig subst s : List Char) : List Char :=
  if orig = [] then (s.map (fun c => subst ++ [c])).flatten ++ subst
  else replaceAllAux orig subst s.length s

/-- Python s[:-l]; for l = 0 this is the empty string. -/
def sliceDropLast (l : Nat) (s : List Char) : List Char :=
  if l = 0 then [] else s.take (s.length - l)

/-- Holmes._encode_rule.  Keys strictly between 4.015 and 5.000 trigger the
synthetic double-letter reduction; otherwise the table entry for the key is
applied according to its location tag.  An unknown tag is the ValueError
outcome, and a key missing from the table is a KeyError in Python; both are
modelled as the error case of Except. -/
def Holmes.encodeRule (num : Nat) (s : List Char) : Except String (List Char) :=
  if 4015 < num ∧ num < 5000 then Except.ok (compressList s)
  else
    match List.lookup num Holmes.rules with
    | none => Except.error ("KeyError")
    | some (orig, subst, location) =>
      if location = Holmes.P then
        Except.ok
          (if orig.data.isPrefixOf s then subst.data ++ s.drop orig.data.length
           else s)
      else if location = Holmes.S then
        Except.ok
          (if orig.data.isSuffixOf s then
            sliceDropLast orig.data.length s ++ subst.data
          else s)
      else if location = Holmes.A then Except.ok (replaceAll orig.data subst.data s)
      else Except.error ("Invalid Location")

/-- Python sorted(list(Holmes.rules.keys()) + [4.200]). -/
def Holmes.sortedKeys : List Nat :=
  List.insertionSort (fun a b => a ≤ b) ((Holmes.rules.map Prod.fst) ++ [4200])

/-- Holmes.encode: lower-case the input and fold the rules over it in
ascending key order; the Except layer carries the ValueError/KeyError
outcomes of _encode_rule (none of which occur, see the totality theorem). -/
def Holmes.encode (s : String) : Except String (List String) :=
  (List.foldlM (fun t num => Holmes.encodeRule num t) (lowerList s.data)
      Holmes.sortedKeys).map
    (fun t => [String.mk t])

/-- The replacement text a rule key contributes: the second component of its
table entry (empty for the synthetic compress key and for keys missing from
the table). -/
def Holmes.ruleSubst (num : Nat) : List Char :=
  match List.lookup num Holmes.rules with
  | some (_, su, _) => su.data
  | none => []

/-- Lowering an already-lowered character changes nothing (the image of the
ASCII uppercase range lies outside that range). -/
theorem lowerChar_idem (c : Char) : lowerChar (lowerChar c) = lowerChar c := by
  unfold lowerChar
  by_cases h : 65 ≤ c.toNat ∧ c.toNat ≤ 90
  · rw [if_pos h]
    have hv : (c.toNat + 32).isValidChar := Or.inl (by omega)
    have ht : (Char.ofNat (c.toNat + 32)).toNat = c.toNat + 32 := by
      unfold Char.ofNat
      rw [dif_pos hv]
      simp [Char.ofNatAux, Char.toNat, UInt32.toNat, UInt32.ofNatCore]
    rw [ht, if_neg (by omega)]
  · rw [if_neg h, if_neg h]

/-- Python s.lower() is idempotent on character lists. -/
theorem lowerList_idem (s : List Char) : lowerList (lowerList s) = lowerList s := by
  induction s with
  | nil => rfl
  | cons c rest ih =>
    show lowerChar (lowerChar c) :: lowerList (lowerList rest) =
      lowerChar c :: lowerList rest
    rw [lowerChar_idem, ih]

/-- Collapsing runs a second time under the same previous character changes
nothing. -/
theorem compressAux_idem (rest : List Char) :
    ∀ prev, compressAux prev (compressAux prev rest) = compressAux prev rest := by
  induction rest with
  | nil => intro prev; rfl
  | cons c rest ih =>
    intro prev
    by_cases h : c = prev ∧ c ≠ '\n'
    · have h1 : compressAux prev (c :: rest) = compressAux prev rest := by
        simp only [compressAux, if_pos h]
      rw [h1, ih prev]
    · have h1 : compressAux prev (c :: rest) = c :: compressAux c rest := by
        simp only [compressAux, if_neg h]
      have h2 : compressAux prev (c :: compressAux c rest) =
          c :: compressAux c (compressAux c rest) := by
        simp only [compressAux, if_neg h]
      rw [h1, h2, ih c]

/-- The run-collapsing substitution is idempotent on character lists. -/
theorem compressList_idem (s : List Char) :
    compressList (compressList s) = compressList s := by
  cases s with
  | nil => rfl
  | cons c rest =>
    show c :: compressAux c (compressAux c rest) = c :: compressAux c rest
    rw [compressAux_idem rest c]

/-- Every character of a collapsed list occurs in the original. -/
theorem mem_compressAux (x : Char) :
    ∀ (s : List Char) (prev : Char), x ∈ compressAux prev s → x ∈ s := by
  intro s
  induction s with
  | nil => intro prev h; simp [compressAux] at h
  | cons c rest ih =>
    intro prev h
    by_cases hc : c = prev ∧ c ≠ '\n'
    · rw [compressAux, if_pos hc] at h
      exact List.mem_cons_of_mem c (ih prev h)
    · rw [compressAux, if_neg hc] at h
      rcases List.mem_cons.mp h with h1 | h1
      · exact h1 ▸ List.mem_cons_self c rest
      · exact List.mem_cons_of_mem c (ih c h1)

/-- Every character of compressList s occurs in s. -/
theorem mem_compressList (x : Char) (s : List Char) (h : x ∈ compressList s) :
    x ∈ s := by
  cases s with
  | nil => simp [compressList] at h
  | cons c rest =>
    rw [compressList] at h
    rcases List.mem_cons.mp h with h1 | h1
    · exact h1 ▸ List.mem_cons_self c rest
    · exact List.mem_cons_of_mem c (mem_compressAux x rest c h1)

/-- ARCoder._encode always returns a non-empty candidate list: the branches
are guarded by non-emptiness, and the fallback is a singleton. -/
theorem encodeStep_fst_ne_nil (s : List Char) (final : Bool) :
    (ARCoder.encodeStep s final).1 ≠ [] := by
  unfold ARCoder.encodeStep
  split
  · next h => simpa using h
  · split
    · next h => simpa using h
    · simp

/-- ARCoder._encode advances the cursor by 1 or 2. -/
theorem encodeStep_snd (s : List Char) (final : Bool) :
    (ARCoder.encodeStep s final).2 = 1 ∨ (ARCoder.encodeStep s final).2 = 2 := by
  unfold ARCoder.encodeStep
  split
  · right; rfl
  · split
    · left; rfl
    · left; rfl

/-- Every token the scan produces carries a non-empty candidate list. -/
theorem tokenizeAux_fst_ne_nil :
    ∀ (fuel : Nat) (r : List Char) (p : List String × Nat),
      p ∈ ARCoder.tokenizeAux fuel r → p.1 ≠ [] := by
  intro fuel
  induction fuel with
  | zero => intro r p h; cases r <;> simp [ARCoder.tokenizeAux] at h
  | succ fuel ih =>
    intro r p h
    cases r with
    | nil => simp [ARCoder.tokenizeAux] at h
    | cons c rest =>
      rw [ARCoder.tokenizeAux] at h
      rcases List.mem_cons.mp h with h1 | h1
      · rw [h1]; exact encodeStep_fst_ne_nil _ _
      · exact ih _ p h1

/-- Every token the scan produces has advance 1 or 2. -/
theorem tokenizeAux_snd_mem :
    ∀ (fuel : Nat) (r : List Char) (p : List String × Nat),
      p ∈ ARCoder.tokenizeAux fuel r → p.2 = 1 ∨ p.2 = 2 := by
  intro fuel
  induction fuel with
  | zero => intro r p h; cases r <;> simp [ARCoder.tokenizeAux] at h
  | succ fuel ih =>
    intro r p h
    cases r with
    | nil => simp [ARCoder.tokenizeAux] at h
    | cons c rest =>
      rw [ARCoder.tokenizeAux] at h
      rcases List.mem_cons.mp h with h1 | h1
      · rw [h1]; exact encodeStep_snd _ _
      · exact ih _ p h1

/-- Summing a constant over a list multiplies it by the length. -/
theorem sumConstList (l : List String) (k : Nat) :
    (l.map (fun _ => k)).sum = l.length * k := by
  induction l with
  | nil => simp
  | cons x l ih => simp [ih, Nat.succ_mul, Nat.add_comm]

/-- The cartesian product has as many elements as the product of the factor
lengths. -/
theorem listProd_length :
    ∀ ls : List (List String), (listProd ls).length = (ls.map List.length).prod := by
  intro ls
  induction ls with
  | nil => rfl
  | cons l ls ih =>
    calc (listProd (l :: ls)).length
        = ((l.map (fun x => (listProd ls).map (fun tl => x :: tl))).map
            List.length).sum := by
          rw [listProd, List.length_flatten]
      _ = l.length * (listProd ls).length := by
          rw [List.map_map]
          have hc : (List.length ∘ fun x : String =>
              List.map (fun tl => x :: tl) (listProd ls)) =
                fun _ => (listProd ls).length := by
            funext x; simp
          rw [hc, sumConstList]
      _ = ((l :: ls).map List.length).prod := by
          simp [ih, Nat.mul_comm]

/-- A product of positive naturals is positive. -/
theorem listProd_pos : ∀ ns : List Nat, (∀ n ∈ ns, 1 ≤ n) → 1 ≤ ns.prod := by
  intro ns
  induction ns with
  | nil => intro _; simp
  | cons n ns ih =>
    intro h
    have h1 := h n (List.mem_cons_self n ns)
    have h2 := ih (fun m hm => h m (List.mem_cons_of_mem n hm))
    calc 1 = 1 * 1 := rfl
    _ ≤ n * ns.prod := Nat.mul_le_mul h1 h2
    _ = (n :: ns).prod := by simp

/-- A product of ones is one. -/
theorem listProd_ones : ∀ ns : List Nat, (∀ n ∈ ns, n = 1) → ns.prod = 1 := by
  intro ns
  induction ns with
  | nil => intro _; simp
  | cons n ns ih =>
    intro h
    have h1 := h n (List.mem_cons_self n ns)
    have h2 := ih (fun m hm => h m (List.mem_cons_of_mem n hm))
    simp [h1, h2]

/-- The candidate-list encoder never returns the empty list: the empty input
yields the singleton product, and every token contributes a non-empty
factor. -/
theorem arEncode_ne_nil (s : String) : ARCoder.encode s ≠ [] := by
  have hpos :
      1 ≤ (listProd ((ARCoder.tokenize
        (ARCoder.normalize s.data)).map Prod.fst)).length := by
    rw [listProd_length]
    apply listProd_pos
    intro n hn
    rw [List.map_map] at hn
    rcases List.mem_map.mp hn with ⟨p, hp, rfl⟩
    have h1 := tokenizeAux_fst_ne_nil _ _ p hp
    exact List.length_pos.mpr h1
  unfold ARCoder.encode
  intro h
  rw [List.dedup_eq_nil] at h
  have h2 := congrArg List.length h
  rw [List.length_map] at h2
  simp only [List.length_nil] at h2
  omega

/-- The consumed character counts of the scan sum to the input length: the
tokens cover the input exactly, left to right and without overlap. -/
theorem tokenConsumedAux_sum :
    ∀ (fuel : Nat) (r : List Char), r.length ≤ fuel →
      (ARCoder.tokenConsumedAux fuel r).sum = r.length := by
  intro fuel
  induction fuel with
  | zero =>
    intro r h
    have h0 : r = [] := List.length_eq_zero.mp (Nat.le_zero.mp h)
    subst h0; rfl
  | succ fuel ih =>
    intro r h
    cases r with
    | nil => rfl
    | cons c rest =>
      rw [ARCoder.tokenConsumedAux]
      rcases encodeStep_snd (c :: rest.take 1) rest.isEmpty with h2 | h2
      · rw [h2]
        simp only [List.sum_cons]
        rw [Nat.min_eq_left (by omega)]
        have hdrop : rest.drop (1 - 1) = rest := by simp
        rw [hdrop, ih rest (by simp at h; omega)]
        simp only [List.length_cons]
        omega
      · rw [h2]
        cases rest with
        | nil => simp [ARCoder.tokenConsumedAux]
        | cons d rest2 =>
          simp only [List.sum_cons]
          rw [Nat.min_eq_left (by simp)]
          have hdrop : (d :: rest2).drop (2 - 1) = rest2 := rfl
          rw [hdrop, ih rest2 (by simp at h; omega)]
          simp only [List.length_cons]
          omega

/-- The consumed counts agree with the advances, except that a final token
may report advance 2 while consuming the single remaining character. -/
theorem tokenConsumed_vs_advance :
    ∀ (fuel : Nat) (r : List Char), r.length ≤ fuel →
      ARCoder.tokenConsumedAux fuel r =
        (ARCoder.tokenizeAux fuel r).map Prod.snd ∨
      ∃ pre, (ARCoder.tokenizeAux fuel r).map Prod.snd = pre ++ [2] ∧
        ARCoder.tokenConsumedAux fuel r = pre ++ [1] := by
  intro fuel
  induction fuel with
  | zero =>
    intro r h
    have h0 : r = [] := List.length_eq_zero.mp (Nat.le_zero.mp h)
    subst h0; left; rfl
  | succ fuel ih =>
    intro r h
    cases r with
    | nil => left; rfl
    | cons c rest =>
      rw [ARCoder.tokenConsumedAux, ARCoder.tokenizeAux]
      rcases encodeStep_snd (c :: rest.take 1) rest.isEmpty with h2 | h2
      · simp only [List.map_cons, h2]
        rw [Nat.min_eq_left (by omega)]
        have hdrop : rest.drop (1 - 1) = rest := by simp
        rw [hdrop]
        rcases ih rest (by simp at h; omega) with h3 | ⟨pre, h3, h4⟩
        · left; rw [h3]
        · right; exact ⟨1 :: pre, by simp [h3], by simp [h4]⟩
      · simp only [List.map_cons, h2]
        cases rest with
        | nil =>
          right
          refine ⟨[], ?_, ?_⟩
          · simp [ARCoder.tokenizeAux]
          · simp [ARCoder.tokenConsumedAux]
        | cons d rest2 =>
          rw [Nat.min_eq_left (by simp)]
          have hdrop : (d :: rest2).drop (2 - 1) = rest2 := rfl
          rw [hdrop]
          rcases ih rest2 (by simp at h; omega) with h3 | ⟨pre, h3, h4⟩
          · left; rw [h3]
          · right; exact ⟨2 :: pre, by simp [h3], by simp [h4]⟩

/-- C1: the candidate-list encoder on "Sohaib" returns, up to order and as a
set, exactly the two strings "suhaeb" and "suhib". -/
theorem C1_encode_Sohaib :
    (ARCoder.encode ("Sohaib")).toFinset =
      ({"suhaeb", "suhib"} : Finset String) := by
  decide

/-- C9: the candidate-list encoder on the empty string returns either the
empty list or the single-element list containing the empty string (the code
yields the latter: the cartesian product over no tokens is the singleton
empty combination). -/
theorem C9_encode_empty :
    ARCoder.encode ("") = [] ∨ ARCoder.encode ("") = [""] := by
  right; decide

/-- C6: the double-letter collapsing operation is idempotent: collapsing an
already-collapsed string is a no-op, for every string. -/
theorem C6_compress_idempotent (s : String) :
    ARCoder.compress (ARCoder.compress s) = ARCoder.compress s := by
  show String.mk (compressList (compressList s.data)) =
    String.mk (compressList s.data)
  rw [compressList_idem]

/-- C7: the candidate-list encoder is case-insensitive: encoding the
lower-cased input gives the same result, and the three spellings of
"Sohaib" encode to the same set. -/
theorem C7_case_insensitive :
    (∀ s : String, ARCoder.encode (pyLower s) = ARCoder.encode s) ∧
    (ARCoder.encode ("Sohaib")).toFinset = (ARCoder.encode ("sohaib")).toFinset ∧
    (ARCoder.encode ("sohaib")).toFinset = (ARCoder.encode ("SOHAIB")).toFinset := by
  refine ⟨fun s => ?_, by decide, by decide⟩
  have hnorm : ARCoder.normalize (pyLower s).data = ARCoder.normalize s.data := by
    show ARCoder.normalize (lowerList s.data) = ARCoder.normalize s.data
    unfold ARCoder.normalize
    rw [lowerList_idem]
  show ARCoder.encode (pyLower s) = ARCoder.encode s
  unfold ARCoder.encode
  rw [hnorm]

/-- C3 (amended): the size of the candidate-list encoder's deduplicated
result is at most the product of the cardinalities of all tokens' candidate
lists (the final compress-and-deduplicate step can merge distinct
combinations, so equality can fail), and it equals exactly 1 whenever every
token has exactly one candidate. -/
theorem C3_encode_card (s : String) :
    (ARCoder.encode s).length ≤
      ((ARCoder.tokenize (ARCoder.normalize s.data)).map
        (fun t => t.1.length)).prod ∧
    ((∀ t ∈ ARCoder.tokenize (ARCoder.normalize s.data), t.1.length = 1) →
      (ARCoder.encode s).length = 1) := by
  have hle : (ARCoder.encode s).length ≤
      ((ARCoder.tokenize (ARCoder.normalize s.data)).map
        (fun t => t.1.length)).prod := by
    unfold ARCoder.encode
    calc ((listProd ((ARCoder.tokenize (ARCoder.normalize s.data)).map
            Prod.fst)).map
              (fun x => ARCoder.compress (String.join x))).dedup.length
        ≤ ((listProd ((ARCoder.tokenize (ARCoder.normalize s.data)).map
            Prod.fst)).map
              (fun x => ARCoder.compress (String.join x))).length :=
          (List.dedup_sublist _).length_le
      _ = (listProd ((ARCoder.tokenize (ARCoder.normalize s.data)).map
            Prod.fst)).length := List.length_map _ _
      _ = ((ARCoder.tokenize (ARCoder.normalize s.data)).map
            (fun t => t.1.length)).prod := by
          rw [listProd_length, List.map_map]
          rfl
  refine ⟨hle, fun h1 => ?_⟩
  have hprod :
      ((ARCoder.tokenize (ARCoder.normalize s.data)).map
        (fun t => t.1.length)).prod = 1 := by
    apply listProd_ones
    intro n hn
    rcases List.mem_map.mp hn with ⟨p, hp, rfl⟩
    exact h1 p hp
  have hge : 1 ≤ (ARCoder.encode s).length :=
    List.length_pos.mpr (arEncode_ne_nil s)
  omega

/-- C3 witness: on "sb" every token has a single candidate and the result
has exactly one element. -/
theorem C3_encode_card_witness : (ARCoder.encode ("sb")).length = 1 :=
  (C3_encode_card ("sb")).2 (by decide)

/-- C3 counterexample: on "ie" the result has 3 elements while the product
of the candidate-list cardinalities is 4 (the combinations "e" and "ee"
collapse to the same compressed string), so the claimed equality fails. -/
theorem C3_counterexample :
    ¬ ((ARCoder.encode ("ie")).length =
      ((ARCoder.tokenize (ARCoder.normalize ("ie").data)).map
        (fun t => t.1.length)).prod) := by
  decide

/-- C5 (amended): the scan produces tokens left to right whose advances are
all 1 or 2 and whose consumed character counts sum to the input length (the
tokens are non-overlapping and exactly cover the input); the consumed count
equals the advance for every token except possibly the last one, where a
final single character matched through the "X." end-marker reports advance 2
while consuming the one remaining character. -/
theorem C5_tokenize_cover (r : List Char) :
    (∀ p ∈ ARCoder.tokenize r, p.2 = 1 ∨ p.2 = 2) ∧
    (ARCoder.tokenConsumed r).sum = r.length ∧
    (ARCoder.tokenConsumed r = (ARCoder.tokenize r).map Prod.snd ∨
      ∃ pre, (ARCoder.tokenize r).map Prod.snd = pre ++ [2] ∧
        ARCoder.tokenConsumed r = pre ++ [1]) :=
  ⟨fun p hp => tokenizeAux_snd_mem r.length r p hp,
   tokenConsumedAux_sum r.length r le_rfl,
   tokenConsumed_vs_advance r.length r le_rfl⟩

/-- C5 witness: the single token of the normalized input "E" has advance 2,
and the consumed counts of that input sum to its length 1. -/
theorem C5_tokenize_cover_witness :
    (((["", "e"], 2) : List String × Nat).2 = 1 ∨
      (((["", "e"], 2) : List String × Nat)).2 = 2) ∧
    (ARCoder.tokenConsumed (ARCoder.normalize ("e").data)).sum =
      (ARCoder.normalize ("e").data).length :=
  ⟨(C5_tokenize_cover (ARCoder.normalize ("e").data)).1 (["", "e"], 2) (by decide),
   (C5_tokenize_cover (ARCoder.normalize ("e").data)).2.1⟩

/-- C5 counterexample: the input "e" normalizes to "E", whose single token
reports advance 2 while consuming only the one available character, so the
advance does not equal the number of source characters consumed. -/
theorem C5_counterexample :
    ARCoder.normalize ("e").data = ['E'] ∧
    (ARCoder.tokenize (ARCoder.normalize ("e").data)).map Prod.snd = [2] ∧
    ARCoder.tokenConsumed (ARCoder.normalize ("e").data) = [1] ∧
    (ARCoder.tokenize (ARCoder.normalize ("e").data)).map Prod.snd ≠
      ARCoder.tokenConsumed (ARCoder.normalize ("e").data) := by
  refine ⟨by decide, by decide, by decide, by decide⟩

/-- The sorted key list of Holmes.encode, evaluated: the synthetic key 4200
sits strictly between the double-vowel digraph keys 4005, 4015 and the 5.x
group. -/
theorem sortedKeys_eq :
    Holmes.sortedKeys =
      [1001, 1002, 1003, 1004, 1005, 1006, 2001, 2002, 2003,
       3001, 3002, 3003, 3004, 3005, 3006, 3007, 3008, 3009, 3010,
       3011, 3012, 3013, 3014, 3015, 3016, 3017, 3018, 3019, 3020,
       3021, 3022, 3023, 3024, 3025, 3026, 3027, 3028, 3029, 3030, 3031,
       4005, 4015, 4200,
       5001, 5002, 5003, 5004, 5005, 5006, 5007, 5008, 5009, 5010] := by
  decide

/-- Characters of a replacement result come from the scanned string or from
the replacement text (auxiliary, fuel version). -/
theorem mem_replaceAllAux :
    ∀ (fuel : Nat) (orig subst s : List Char) (x : Char),
      x ∈ replaceAllAux orig subst fuel s → x ∈ s ∨ x ∈ subst := by
  intro fuel
  induction fuel with
  | zero =>
    intro orig subst s x hx
    cases s with
    | nil => simp [replaceAllAux] at hx
    | cons c rest =>
      simp only [replaceAllAux] at hx
      exact Or.inl hx
  | succ fuel ih =>
    intro orig subst s x hx
    cases s with
    | nil => simp [replaceAllAux] at hx
    | cons c rest =>
      simp only [replaceAllAux] at hx
      split at hx
      · rcases List.mem_append.mp hx with h | h
        · exact Or.inr h
        · rcases ih orig subst _ x h with h2 | h2
          · exact Or.inl (List.mem_of_mem_drop h2)
          · exact Or.inr h2
      · rcases List.mem_cons.mp hx with h | h
        · exact Or.inl (h ▸ List.mem_cons_self c rest)
        · rcases ih orig subst rest x h with h2 | h2
          · exact Or.inl (List.mem_cons_of_mem c h2)
          · exact Or.inr h2

/-- Characters of a replacement result come from the scanned string or from
the replacement text. -/
theorem mem_replaceAll (orig subst s : List Char) (x : Char)
    (hx : x ∈ replaceAll orig subst s) : x ∈ s ∨ x ∈ subst := by
  unfold replaceAll at hx
  split at hx
  · rcases List.mem_append.mp hx with h | h
    · rcases List.mem_flatten.mp h with ⟨l, hl, hxl⟩
      rcases List.mem_map.mp hl with ⟨c, hc, rfl⟩
      rcases List.mem_append.mp hxl with h2 | h2
      · exact Or.inr h2
      · simp only [List.mem_singleton] at h2
        exact Or.inl (h2 ▸ hc)
    · exact Or.inr h
  · exact mem_replaceAllAux s.length orig subst s x hx

/-- Replacing a single character by nothing removes every occurrence of it
(auxiliary, fuel version; the fuel dominates the scanned length). -/
theorem not_mem_replaceAllAux_delete :
    ∀ (fuel : Nat) (c : Char) (s : List Char), s.length ≤ fuel →
      c ∉ replaceAllAux [c] [] fuel s := by
  intro fuel
  induction fuel with
  | zero =>
    intro c s h
    have h0 : s = [] := List.length_eq_zero.mp (Nat.le_zero.mp h)
    subst h0; simp [replaceAllAux]
  | succ fuel ih =>
    intro c s h
    cases s with
    | nil => simp [replaceAllAux]
    | cons d rest =>
      simp only [replaceAllAux]
      split
      · next hp =>
        simp only [List.nil_append]
        have hdrop : (d :: rest).drop ([c] : List Char).length = rest := rfl
        rw [hdrop]
        exact ih c rest (by simp at h; omega)
      · next hp =>
        intro hmem
        rcases List.mem_cons.mp hmem with h1 | h1
        · apply hp
          subst h1
          simp [List.isPrefixOf]
        · exact ih c rest (by simp at h; omega) h1

/-- Replacing a single character by nothing removes every occurrence. -/
theorem not_mem_replaceAll_delete (c : Char) (s : List Char) :
    c ∉ replaceAll [c] [] s := by
  unfold replaceAll
  rw [if_neg (by simp)]
  exact not_mem_replaceAllAux_delete s.length c s le_rfl

/-- Characters of a successful rewrite step come from the input string or
from the replacement text of the key's table entry. -/
theorem encodeRule_mem (num : Nat) (s t : List Char) (x : Char)
    (h : Holmes.encodeRule num s = Except.ok t) (hx : x ∈ t) :
    x ∈ s ∨ x ∈ Holmes.ruleSubst num := by
  unfold Holmes.encodeRule at h
  split at h
  · cases h
    exact Or.inl (mem_compressList x s hx)
  · unfold Holmes.ruleSubst
    cases hl : List.lookup num Holmes.rules with
    | none => rw [hl] at h; cases h
    | some r =>
      obtain ⟨orig, subst, location⟩ := r
      rw [hl] at h
      simp only at h
      simp only
      split at h
      · cases h
        split at hx
        · rcases List.mem_append.mp hx with h2 | h2
          · exact Or.inr h2
          · exact Or.inl (List.mem_of_mem_drop h2)
        · exact Or.inl hx
      · split at h
        · cases h
          split at hx
          · rcases List.mem_append.mp hx with h2 | h2
            · unfold sliceDropLast at h2
              split at h2
              · simp at h2
              · exact Or.inl (List.take_subset _ _ h2)
            · exact Or.inr h2
          · exact Or.inl hx
        · split at h
          · cases h
            rcases mem_replaceAll orig.data subst.data s x hx with h2 | h2
            · exact Or.inl h2
            · exact Or.inr h2
          · cases h

/-- Characters of a successful rule fold come from the initial string or
from the replacement text of one of the folded keys. -/
theorem foldlM_rules_mem :
    ∀ (keys : List Nat) (s t : List Char),
      List.foldlM (fun u num => Holmes.encodeRule num u) s keys =
        Except.ok t →
      ∀ x : Char, x ∈ t → x ∈ s ∨ ∃ k ∈ keys, x ∈ Holmes.ruleSubst k := by
  intro keys
  induction keys with
  | nil =>
    intro s t h x hx
    have h0 : s = t := by
      have h1 : (Except.ok s : Except String (List Char)) = Except.ok t := h
      cases h1; rfl
    exact Or.inl (h0 ▸ hx)
  | cons k ks ih =>
    intro s t h x hx
    rw [List.foldlM_cons] at h
    cases hk : Holmes.encodeRule k s with
    | error e =>
      rw [hk] at h
      have h1 : (Except.error e : Except String (List Char)) = Except.ok t := h
      cases h1
    | ok u =>
      rw [hk] at h
      have h1 : List.foldlM (fun u num => Holmes.encodeRule num u) u ks =
          Except.ok t := h
      rcases ih u t h1 x hx with h2 | ⟨kk, hkk, hxk⟩
      · rcases encodeRule_mem k s u x hk h2 with h3 | h3
        · exact Or.inl h3
        · exact Or.inr ⟨k, List.mem_cons_self k ks, h3⟩
      · exact Or.inr ⟨kk, List.mem_cons_of_mem k hkk, hxk⟩

/-- Every key of the sorted key list rewrites successfully on every string:
each is either in the synthetic compress range or present in the table with
a recognised location tag. -/
theorem encodeRule_ok :
    ∀ k ∈ Holmes.sortedKeys, ∀ u : List Char,
      ∃ v, Holmes.encodeRule k u = Except.ok v := by
  intro k hk u
  rw [sortedKeys_eq] at hk
  fin_cases hk <;> exact ⟨_, rfl⟩

/-- A fold of everywhere-successful steps is successful. -/
theorem foldlM_rules_ok :
    ∀ keys : List Nat,
      (∀ k ∈ keys, ∀ u : List Char, ∃ v, Holmes.encodeRule k u = Except.ok v) →
      ∀ s : List Char,
        ∃ t, List.foldlM (fun u num => Holmes.encodeRule num u) s keys =
          Except.ok t := by
  intro keys
  induction keys with
  | nil => intro _ s; exact ⟨s, rfl⟩
  | cons k ks ih =>
    intro hall s
    obtain ⟨u, hu⟩ := hall k (List.mem_cons_self k ks) s
    obtain ⟨t, ht⟩ := ih (fun k2 h2 u2 => hall k2 (List.mem_cons_of_mem k h2) u2) u
    refine ⟨t, ?_⟩
    rw [List.foldlM_cons, hu]
    exact ht

/-- Bind of a successful Except value reduces to the continuation. -/
theorem exceptOkBind {e a b : Type} (x : a) (g : a → Except e b) :
    (Except.ok x >>= g) = g x := rfl

/-- Characters deleted by a single-character deletion rule at the head of a
fold stay absent when no later key's replacement text contains them. -/
theorem no_char_after_delete (c : Char) (k : Nat)
    (hrule : ∀ u : List Char,
      Holmes.encodeRule k u = Except.ok (replaceAll [c] [] u))
    (keys : List Nat) (hkeys : ∀ k2 ∈ keys, c ∉ Holmes.ruleSubst k2)
    (s t : List Char)
    (h : List.foldlM (fun u num => Holmes.encodeRule num u) s (k :: keys) =
      Except.ok t) :
    c ∉ t := by
  rw [List.foldlM_cons, hrule s] at h
  have h1 : List.foldlM (fun u num => Holmes.encodeRule num u)
      (replaceAll [c] [] s) keys = Except.ok t := h
  intro hct
  rcases foldlM_rules_mem keys _ t h1 c hct with h2 | ⟨k2, hk2, hxk⟩
  · exact not_mem_replaceAll_delete c s h2
  · exact hkeys k2 hk2 hxk

set_option maxHeartbeats 1000000 in
/-- C10: for every input string, the single string returned by the
sequential-rewriter encoder contains no hyphen, no straight apostrophe and
no space: rules 2.001 to 2.003 delete every occurrence of these three
characters, and no later rule's replacement text reintroduces any of
them. -/
theorem C10_no_separators (s : String) (out : List String)
    (h : Holmes.encode s = Except.ok out) :
    ∀ r ∈ out, '-' ∉ r.data ∧ apoChar ∉ r.data ∧ ' ' ∉ r.data := by
  unfold Holmes.encode at h
  cases hfold0 : List.foldlM (fun t num => Holmes.encodeRule num t)
      (lowerList s.data) Holmes.sortedKeys with
  | error e =>
    rw [hfold0] at h
    have hbad : (Except.error e : Except String (List String)) = Except.ok out := h
    cases hbad
  | ok t =>
    rw [hfold0] at h
    have hout : (Except.ok [String.mk t] : Except String (List String)) =
        Except.ok out := h
    cases hout
    intro r hr
    simp only [List.mem_singleton] at hr
    subst hr
    show '-' ∉ t ∧ apoChar ∉ t ∧ ' ' ∉ t
    have hfold := hfold0
    rw [sortedKeys_eq] at hfold
    -- the hyphen is deleted at key 2001
    have hsplit2001 : ([1001, 1002, 1003, 1004, 1005, 1006, 2001, 2002, 2003, 3001, 3002, 3003, 3004, 3005, 3006, 3007, 3008, 3009, 3010, 3011, 3012, 3013, 3014, 3015, 3016, 3017, 3018, 3019, 3020, 3021, 3022, 3023, 3024, 3025, 3026, 3027, 3028, 3029, 3030, 3031, 4005, 4015, 4200, 5001, 5002, 5003, 5004, 5005, 5006, 5007, 5008, 5009, 5010] : List Nat) =
        [1001, 1002, 1003, 1004, 1005, 1006] ++
          2001 :: [2002, 2003, 3001, 3002, 3003, 3004, 3005, 3006, 3007, 3008, 3009, 3010, 3011, 3012, 3013, 3014, 3015, 3016, 3017, 3018, 3019, 3020, 3021, 3022, 3023, 3024, 3025, 3026, 3027, 3028, 3029, 3030, 3031, 4005, 4015, 4200, 5001, 5002, 5003, 5004, 5005, 5006, 5007, 5008, 5009, 5010] := rfl
    have hres2001 : '-' ∉ t := by
      rw [hsplit2001, List.foldlM_append] at hfold
      cases hpre : List.foldlM (fun u num => Holmes.encodeRule num u)
          (lowerList s.data) ([1001, 1002, 1003, 1004, 1005, 1006] : List Nat) with
      | error e =>
        rw [hpre] at hfold
        have hbad : (Except.error e : Except String (List Char)) = Except.ok t := hfold
        cases hbad
      | ok s1 =>
        rw [hpre, exceptOkBind] at hfold
        simp only [] at hfold
        exact no_char_after_delete '-' 2001 (fun u => rfl)
          [2002, 2003, 3001, 3002, 3003, 3004, 3005, 3006, 3007, 3008, 3009, 3010, 3011, 3012, 3013, 3014, 3015, 3016, 3017, 3018, 3019, 3020, 3021, 3022, 3023, 3024, 3025, 3026, 3027, 3028, 3029, 3030, 3031, 4005, 4015, 4200, 5001, 5002, 5003, 5004, 5005, 5006, 5007, 5008, 5009, 5010] (by decide) s1 t hfold
    clear hfold
    have hfold := hfold0
    rw [sortedKeys_eq] at hfold
    -- the apostrophe is deleted at key 2002
    have hsplit2002 : ([1001, 1002, 1003, 1004, 1005, 1006, 2001, 2002, 2003, 3001, 3002, 3003, 3004, 3005, 3006, 3007, 3008, 3009, 3010, 3011, 3012, 3013, 3014, 3015, 3016, 3017, 3018, 3019, 3020, 3021, 3022, 3023, 3024, 3025, 3026, 3027, 3028, 3029, 3030, 3031, 4005, 4015, 4200, 5001, 5002, 5003, 5004, 5005, 5006, 5007, 5008, 5009, 5010] : List Nat) =
        [1001, 1002, 1003, 1004, 1005, 1006, 2001] ++
          2002 :: [2003, 3001, 3002, 3003, 3004, 3005, 3006, 3007, 3008, 3009, 3010, 3011, 3012, 3013, 3014, 3015, 3016, 3017, 3018, 3019, 3020, 3021, 3022, 3023, 3024, 3025, 3026, 3027, 3028, 3029, 3030, 3031, 4005, 4015, 4200, 5001, 5002, 5003, 5004, 5005, 5006, 5007, 5008, 5009, 5010] := rfl
    have hres2002 : apoChar ∉ t := by
      rw [hsplit2002, List.foldlM_append] at hfold
      cases hpre : List.foldlM (fun u num => Holmes.encodeRule num u)
          (lowerList s.data) ([1001, 1002, 1003, 1004, 1005, 1006, 2001] : List Nat) with
      | error e =>
        rw [hpre] at hfold
        have hbad : (Except.error e : Except String (List Char)) = Except.ok t := hfold
        cases hbad
      | ok s1 =>
        rw [hpre, exceptOkBind] at hfold
        simp only [] at hfold
        exact no_char_after_delete apoChar 2002 (fun u => rfl)
          [2003, 3001, 3002, 3003, 3004, 3005, 3006, 3007, 3008, 3009, 3010, 3011, 3012, 3013, 3014, 3015, 3016, 3017, 3018, 3019, 3020, 3021, 3022, 3023, 3024, 3025, 3026, 3027, 3028, 3029, 3030, 3031, 4005, 4015, 4200, 5001, 5002, 5003, 5004, 5005, 5006, 5007, 5008, 5009, 5010] (by decide) s1 t hfold
    clear hfold
    have hfold := hfold0
    rw [sortedKeys_eq] at hfold
    -- the space is deleted at key 2003
    have hsplit2003 : ([1001, 1002, 1003, 1004, 1005, 1006, 2001, 2002, 2003, 3001, 3002, 3003, 3004, 3005, 3006, 3007, 3008, 3009, 3010, 3011, 3012, 3013, 3014, 3015, 3016, 3017, 3018, 3019, 3020, 3021, 3022, 3023, 3024, 3025, 3026, 3027, 3028, 3029, 3030, 3031, 4005, 4015, 4200, 5001, 5002, 5003, 5004, 5005, 5006, 5007, 5008, 5009, 5010] : List Nat) =
        [1001, 1002, 1003, 1004, 1005, 1006, 2001, 2002] ++
          2003 :: [3001, 3002, 3003, 3004, 3005, 3006, 3007, 3008, 3009, 3010, 3011, 3012, 3013, 3014, 3015, 3016, 3017, 3018, 3019, 3020, 3021, 3022, 3023, 3024, 3025, 3026, 3027, 3028, 3029, 3030, 3031, 4005, 4015, 4200, 5001, 5002, 5003, 5004, 5005, 5006, 5007, 5008, 5009, 5010] := rfl
    have hres2003 : ' ' ∉ t := by
      rw [hsplit2003, List.foldlM_append] at hfold
      cases hpre : List.foldlM (fun u num => Holmes.encodeRule num u)
          (lowerList s.data) ([1001, 1002, 1003, 1004, 1005, 1006, 2001, 2002] : List Nat) with
      | error e =>
        rw [hpre] at hfold
        have hbad : (Except.error e : Except String (List Char)) = Except.ok t := hfold
        cases hbad
      | ok s1 =>
        rw [hpre, exceptOkBind] at hfold
        simp only [] at hfold
        exact no_char_after_delete ' ' 2003 (fun u => rfl)
          [3001, 3002, 3003, 3004, 3005, 3006, 3007, 3008, 3009, 3010, 3011, 3012, 3013, 3014, 3015, 3016, 3017, 3018, 3019, 3020, 3021, 3022, 3023, 3024, 3025, 3026, 3027, 3028, 3029, 3030, 3031, 4005, 4015, 4200, 5001, 5002, 5003, 5004, 5005, 5006, 5007, 5008, 5009, 5010] (by decide) s1 t hfold
    exact ⟨hres2001, hres2002, hres2003⟩

/-- C10 witness: the encoder output for "Sohaib" is free of the three
separator characters. -/
theorem C10_no_separators_witness :
    '-' ∉ ("sohayb").data ∧ apoChar ∉ ("sohayb").data ∧ ' ' ∉ ("sohayb").data :=
  C10_no_separators ("Sohaib") ["sohayb"] rfl ("sohayb") (by decide)

/-- C2: the sequential-rewriter encoder on "Sohaib" returns exactly the
single-element list containing "sohayb". -/
theorem C2_Holmes_Sohaib : Holmes.encode ("Sohaib") = Except.ok ["sohayb"] := rfl

/-- C4: Holmes.encode is a fold of the rewrite steps over the sorted key
list, each rule rewriting the output of all lower-priority rules; the key
list is strictly ascending (so each key is applied exactly once), it is a
permutation of the table keys plus the synthetic key 4200, the synthetic
key sits strictly between the digraph double-vowel rules 4005, 4015 and the
5.x single-character rules (see the evaluated list), and the step at 4200 is
exactly the double-letter reduction. -/
theorem C4_rule_order :
    (∀ s : String,
      Holmes.encode s =
        (List.foldlM (fun t num => Holmes.encodeRule num t) (lowerList s.data)
            Holmes.sortedKeys).map (fun t => [String.mk t])) ∧
    Holmes.sortedKeys.Chain' (fun a b => a < b) ∧
    Holmes.sortedKeys.Nodup ∧
    Holmes.sortedKeys.Perm ((Holmes.rules.map Prod.fst) ++ [4200]) ∧
    Holmes.sortedKeys =
      [1001, 1002, 1003, 1004, 1005, 1006, 2001, 2002, 2003,
       3001, 3002, 3003, 3004, 3005, 3006, 3007, 3008, 3009, 3010,
       3011, 3012, 3013, 3014, 3015, 3016, 3017, 3018, 3019, 3020,
       3021, 3022, 3023, 3024, 3025, 3026, 3027, 3028, 3029, 3030, 3031,
       4005, 4015, 4200,
       5001, 5002, 5003, 5004, 5005, 5006, 5007, 5008, 5009, 5010] ∧
    (∀ s : List Char, Holmes.encodeRule 4200 s = Except.ok (compressList s)) :=
  ⟨fun s => rfl, by rw [sortedKeys_eq]; simp [List.chain'_cons],
   by rw [sortedKeys_eq]; decide, List.perm_insertionSort _ _,
   sortedKeys_eq, fun s => rfl⟩

/-- C8: both encoders return a well-defined result on every input string
(the candidate-list encoder a non-empty list, the sequential rewriter a
successful single string); the Invalid Location branch is unreachable for
the shipped table because every rule's location tag is one of the three
recognised tags. -/
theorem C8_totality :
    (∀ s : String, ARCoder.encode s ≠ []) ∧
    (∀ s : String, ∃ out, Holmes.encode s = Except.ok out) ∧
    (Holmes.rules.all fun r =>
      r.2.2.2 == Holmes.P || r.2.2.2 == Holmes.S || r.2.2.2 == Holmes.A) =
        true := by
  refine ⟨arEncode_ne_nil, fun s => ?_, by decide⟩
  obtain ⟨t, ht⟩ :=
    foldlM_rules_ok Holmes.sortedKeys encodeRule_ok (lowerList s.data)
  refine ⟨[String.mk t], ?_⟩
  unfold Holmes.encode
  rw [ht]
  rfl
